import Mathlib

/-!
# Shallow embedding of the `iter` HTTP router (`iter.go`)

The router matches a request path and method against registered route
patterns, extracts path parameters into a request context, and dispatches
to a middleware-wrapped handler.

Handlers are opaque to the router, so they are embedded as values of an
abstract type `α`; middleware are functions `α → α`.  The Go
`context.Context` value chain is embedded as an association list `Ctx`
(`context.WithValue` conses; lookup finds the innermost binding).  The
Go standard-library `regexp` package (an external collaborator of this
repository) is embedded as a small regular-expression language with
Brzozowski-derivative matching; `Regex.matchString` has the documented
Go semantics of `Regexp.MatchString`: it reports whether the string
*contains* any match of the expression.  The process-wide compiled-regex
cache `rxPatterns`, which route registration populates via
`regexp.MustCompile`, is passed to the matcher as a lookup function
`rx : String → Regex` giving the compiled form of each regex source text.
-/

namespace Iter

/-- Go `strings.HasPrefix`, on the character lists of the strings. -/
def strHasPfx (s pre : String) : Bool := pre.data.isPrefixOf s.data

/-- Go `strings.HasSuffix`, on the character lists of the strings. -/
def strHasSfx (s suf : String) : Bool := suf.data.isSuffixOf s.data

/-- Go `strings.TrimPrefix s pre`: drop `pre` from the front of `s` when it
is a prefix, otherwise return `s` unchanged. -/
def trimPfx (s pre : String) : String :=
  if strHasPfx s pre then String.mk (s.data.drop pre.data.length) else s

/-- Go `strings.ToUpper`, for the ASCII method strings the router handles. -/
def strUpper (s : String) : String := String.mk (s.data.map Char.toUpper)

/-- Character-list split on a separator character; `[[]]` on the empty
list, so that `goSplit "" sep = [""]`, as in Go. -/
def splitChars (sep : Char) : List Char → List (List Char)
  | [] => [[]]
  | c :: cs =>
    if c = sep then [] :: splitChars sep cs
    else
      match splitChars sep cs with
      | [] => [[c]]
      | w :: ws => (c :: w) :: ws

/-- Go `strings.Split s sep` for the one-character separators the router
uses (`"/"` and `"|"`). -/
def goSplit (s : String) (sep : Char) : List String :=
  (splitChars sep s.data).map String.mk

/-- Go `strings.Join`, on character lists. -/
def joinChars (sep : Char) : List (List Char) → List Char
  | [] => []
  | [w] => w
  | w :: ws => w ++ sep :: joinChars sep ws

/-- Go `strings.Join elems sep` for a one-character separator. -/
def goJoin (elems : List String) (sep : Char) : String :=
  String.mk (joinChars sep (elems.map String.data))

/-- The first-occurrence cut of a character list: `some (before, after)`
when the separator occurs. -/
def cutChars (sep : Char) : List Char → Option (List Char × List Char)
  | [] => none
  | c :: cs =>
    if c = sep then some ([], cs)
    else (cutChars sep cs).map (fun p => (c :: p.1, p.2))

/-- Go `strings.Cut s sep` for a one-character separator: split around the
first occurrence of `sep`, returning `(before, after, found)`. -/
def goCut (s : String) (sep : Char) : String × String × Bool :=
  match cutChars sep s.data with
  | some (a, b) => (String.mk a, String.mk b, true)
  | none => (s, "", false)

/-- The request context value chain: `context.WithValue` conses a binding,
lookup returns the innermost one. -/
abbrev Ctx := List (String × String)

/-- Go `context.WithValue(ctx, key(k), v)`. -/
def ctxWithValue (ctx : Ctx) (k v : String) : Ctx := (k, v) :: ctx

/-- `Param(ctx, param)` from `iter.go`: the innermost binding of `param`,
or `""` when absent. -/
def Param (ctx : Ctx) (p : String) : String :=
  match ctx.find? (fun kv => kv.1 == p) with
  | some kv => kv.2
  | none => ""

/-- Regular expressions, embedding the compiled form produced by the Go
standard-library `regexp` package for the patterns a route can carry. -/
inductive Regex where
  | emptyset : Regex
  | epsilon : Regex
  | char (c : Char) : Regex
  | alt (r s : Regex) : Regex
  | cat (r s : Regex) : Regex
  | star (r : Regex) : Regex
  deriving DecidableEq

/-- Whether a regex accepts the empty string. -/
def Regex.nullable : Regex → Bool
  | .emptyset => false
  | .epsilon => true
  | .char _ => false
  | .alt r s => r.nullable || s.nullable
  | .cat r s => r.nullable && s.nullable
  | .star _ => true

/-- Brzozowski derivative of a regex by one character. -/
def Regex.deriv : Regex → Char → Regex
  | .emptyset, _ => .emptyset
  | .epsilon, _ => .emptyset
  | .char c, a => if a = c then .epsilon else .emptyset
  | .alt r s, a => .alt (r.deriv a) (s.deriv a)
  | .cat r s, a =>
    if r.nullable then .alt (.cat (r.deriv a) s) (s.deriv a)
    else .cat (r.deriv a) s
  | .star r, a => .cat (r.deriv a) (.star r)

/-- Full-text match: the regex accepts exactly the whole character list. -/
def Regex.fullMatch (r : Regex) (cs : List Char) : Bool :=
  (cs.foldl Regex.deriv r).nullable

/-- Go `Regexp.MatchString`: true iff the string *contains* a match of the
regex, i.e. some contiguous substring is fully matched. -/
def Regex.matchString (r : Regex) (s : String) : Bool :=
  let cs := s.data
  (List.range (cs.length + 1)).any fun i =>
    (List.range (cs.length - i + 1)).any fun j =>
      r.fullMatch ((cs.drop i).take j)

/-- Full-text match on a `String`. -/
def Regex.fullMatchString (r : Regex) (s : String) : Bool :=
  r.fullMatch s.data

/-- The `route` struct of `iter.go`; the handler type is abstract. -/
structure Route (α : Type) where
  method : String
  segments : List String
  wildcard : Bool
  handler : α
  deriving DecidableEq

/-- The segment loop of `route.match` (`iter.go` lines 132–158): recursion
over the route segments paired with the remaining request segments.  An
exhausted request list is the `i > len(urlSegments)-1` bound check, which
Go performs before inspecting the route segment. -/
def matchLoop (rx : String → Regex) : List String → List String → Ctx → Ctx × Bool
  | [], _, ctx => (ctx, true)
  | _ :: _, [], ctx => (ctx, false)
  | seg :: rest, u :: us, ctx =>
    if seg == "..." then
      (ctxWithValue ctx "..." (goJoin (u :: us) '/'), true)
    else if strHasPfx seg ":" then
      let c := goCut (trimPfx seg ":") '|'
      if c.2.2 then
        if (rx c.2.1).matchString u then matchLoop rx rest us (ctxWithValue ctx c.1 u)
        else (ctx, false)
      else if u == "" then (ctx, false)
      else matchLoop rx rest us (ctxWithValue ctx c.1 u)
    else if u == seg then matchLoop rx rest us ctx
    else (ctx, false)

/-- `route.match` (`iter.go` lines 128–159): a non-wildcard route first
requires equal segment counts, then both run the segment loop. -/
def matchRoute {α : Type} (rx : String → Regex) (r : Route α) (ctx : Ctx)
    (urlSegments : List String) : Ctx × Bool :=
  if !r.wildcard && urlSegments.length != r.segments.length then (ctx, false)
  else matchLoop rx r.segments urlSegments ctx

/-- `Mux.wrap` body (`iter.go` lines 161–166): the downward loop
`for i := len-1; i >= 0; i--; handler = middleware[i](handler)` applies the
last middleware innermost, i.e. nests as `mw[0] (mw[1] (… handler))`. -/
def wrap {α : Type} : List (α → α) → α → α
  | [], handler => handler
  | f :: rest, handler => f (wrap rest handler)

/-- The `Mux` struct of `iter.go`. -/
structure Mux (α : Type) where
  notFound : α
  methodNotAllowed : α
  options : α
  routes : List (Route α)
  middleware : List (α → α)

/-- `(*Mux).wrap` composed over the mux's middleware list. -/
def Mux.wrap {α : Type} (m : Mux α) (handler : α) : α :=
  Iter.wrap m.middleware handler

/-- The `allMethods` package variable of `iter.go`. -/
def allMethods : List String :=
  ["DELETE", "GET", "HEAD", "OPTIONS", "PATCH", "POST", "PUT", "TRACE"]

/-- `(*Mux).Handle` (`iter.go` lines 51–75), restricted to its effect on the
route table: default to `allMethods` on an empty list, apply the GET/HEAD
auto-add rule, and append one route per method with the handler wrapped in
the mux's *current* middleware.  (Lines 67–74 additionally populate the
process-wide regex cache, which the matcher receives as the `rx` lookup.) -/
def Mux.handle {α : Type} (m : Mux α) (pat : String) (handler : α)
    (methods : List String) : Mux α :=
  let ms0 := if methods.length == 0 then allMethods else methods
  let ms := if ms0.contains "GET" && !ms0.contains "HEAD" then ms0 ++ ["GET"] else ms0
  let added := ms.map (fun method =>
    { method := strUpper method
      segments := goSplit pat '/'
      wildcard := strHasSfx pat "/..."
      handler := m.wrap handler : Route α })
  { m with routes := m.routes ++ added }

/-- `(*Mux).Use` (`iter.go` lines 108–110). -/
def Mux.use {α : Type} (m : Mux α) (mws : List (α → α)) : Mux α :=
  { m with middleware := m.middleware ++ mws }

/-- The observable outcome of one dispatch: which handler is invoked,
with which request context, and — for the 405/automatic-OPTIONS paths —
the value the `Allow` response header is set to. -/
inductive Outcome (α : Type) where
  | dispatched (handler : α) (ctx : Ctx)
  | optionsResp (allowHeader : String) (handler : α)
  | methodNotAllowedResp (allowHeader : String) (handler : α)
  | notFoundResp (handler : α)
  deriving DecidableEq

/-- The route scan of `ServeHTTP` (`iter.go` lines 84–95): first
path-and-method match dispatches; a path match with another method
accumulates that method (skipping duplicates) into `allowedMethods`. -/
def scanRoutes {α : Type} (rx : String → Regex) (method : String)
    (segments : List String) (ctx : Ctx) :
    List (Route α) → List String → Option (α × Ctx) × List String
  | [], allowed => (none, allowed)
  | r :: rest, allowed =>
    let res := matchRoute rx r ctx segments
    if res.2 then
      if method == r.method then (some (r.handler, res.1), allowed)
      else scanRoutes rx method segments ctx rest
        (if allowed.contains r.method then allowed else allowed ++ [r.method])
    else scanRoutes rx method segments ctx rest allowed

/-- `(*Mux).ServeHTTP` (`iter.go` lines 81–106) as a function from the
request method, path and context to the dispatch outcome. -/
def serveHTTP {α : Type} (rx : String → Regex) (m : Mux α)
    (method path : String) (reqCtx : Ctx) : Outcome α :=
  let segments := goSplit path '/'
  match scanRoutes rx method segments reqCtx m.routes [] with
  | (some (h, ctx), _) => .dispatched h ctx
  | (none, allowed) =>
    if allowed.length > 0 then
      let hdr := goJoin (allowed ++ ["OPTIONS"]) ','
      if method == "OPTIONS" then .optionsResp hdr (m.wrap m.options)
      else .methodNotAllowedResp hdr (m.wrap m.methodNotAllowed)
    else .notFoundResp (m.wrap m.notFound)

/-- The path-only match verdict of a route against already-split request
segments (the `ok` component of `route.match`). -/
def pathB {α : Type} (rx : String → Regex) (segs : List String) (ctx : Ctx)
    (r : Route α) : Bool :=
  (matchRoute rx r ctx segs).2

/-- Methods of the path-matching routes, in scan order. -/
def pathMethods {α : Type} (rx : String → Regex) (segs : List String) (ctx : Ctx)
    (routes : List (Route α)) : List String :=
  (routes.filter (pathB rx segs ctx)).map (fun r => r.method)

/-- Keep-first deduplication relative to an already-seen list: the spec's
"methods in scan-encounter order, without duplicates". -/
def dedupFirst (seen : List String) : List String → List String
  | [] => []
  | x :: xs => if seen.contains x then dedupFirst seen xs else x :: dedupFirst (x :: seen) xs

/-- First occurrences of a list's elements, in order. -/
def dedupKeepFirst (l : List String) : List String := dedupFirst [] l

/-- A regex lookup for routes that use no regex segment. -/
def rxNone : String → Regex := fun _ => Regex.emptyset

/-- The compiled-regex cache after registering a pattern whose only regex
source text is `"a"`: Go `regexp.MustCompile("a")` compiles to the
single-character expression. -/
def rxCharA : String → Regex := fun _ => Regex.char 'a'

/-- The route produced by registering pattern `/users/:id|a`. -/
def routeIdA : Route Nat :=
  { method := "GET", segments := goSplit "/users/:id|a" '/', wildcard := false, handler := 0 }

/-- The route produced by registering pattern `/files/...`. -/
def routeFiles : Route Nat :=
  { method := "GET", segments := goSplit "/files/..." '/', wildcard := true, handler := 0 }

/-- The route produced by registering pattern `/users/:id`. -/
def routeUsersId : Route Nat :=
  { method := "GET", segments := goSplit "/users/:id" '/', wildcard := false, handler := 0 }

/-- A route fully matches a request: path match and method equality. -/
def fullB {α : Type} (rx : String → Regex) (method : String) (segs : List String)
    (ctx : Ctx) (r : Route α) : Bool :=
  pathB rx segs ctx r && (method == r.method)

/-- One accumulation step of `allowedMethods` in `ServeHTTP`. -/
def stepAllow (allowed : List String) (mth : String) : List String :=
  if allowed.contains mth then allowed else allowed ++ [mth]

/-- An empty mux with labelled default handlers. -/
def muxE : Mux String :=
  { notFound := "NF", methodNotAllowed := "MNA", options := "OPT",
    routes := [], middleware := [] }

/-- Two routes with identical pattern and method, registered in order. -/
def muxA : Mux String := (muxE.handle "/x" "h1" ["POST"]).handle "/x" "h2" ["POST"]

/-- GET and POST on `/w`, in that order (GET first triggers the GET
auto-append, so the table is GET, GET, POST). -/
def muxGP : Mux String := (muxE.handle "/w" "hg" ["GET"]).handle "/w" "hp" ["POST"]

/-- A single OPTIONS route on `/x`. -/
def muxOpt : Mux String := muxE.handle "/x" "ho" ["OPTIONS"]

/-- A trace-transformer handler: appends its label to the trace. -/
def handlerTrace (label : String) : List String → List String :=
  fun t => t ++ [label]

/-- A trace-transformer middleware: records its inbound label, runs the
wrapped handler, then records its outbound label. -/
def mwTrace (inLabel outLabel : String) (h : List String → List String) :
    List String → List String :=
  fun t => h (t ++ [inLabel]) ++ [outLabel]

/-- The Go `MatchString` semantics made explicit: the string contains a
fully matched contiguous substring. -/
theorem Regex.matchString_iff (r : Regex) (s : String) :
    r.matchString s = true ↔
      ∃ pre mid suf : List Char,
        s.data = pre ++ mid ++ suf ∧ r.fullMatch mid = true := by
  unfold Regex.matchString
  simp only [List.any_eq_true, List.mem_range]
  constructor
  · rintro ⟨i, _, j, _, hm⟩
    refine ⟨s.data.take i, (s.data.drop i).take j, (s.data.drop i).drop j, ?_, hm⟩
    rw [List.append_assoc, List.take_append_drop, List.take_append_drop]
  · rintro ⟨pre, mid, suf, hdec, hm⟩
    have hlen : s.data.length = pre.length + mid.length + suf.length := by
      rw [hdec]; simp; omega
    refine ⟨pre.length, by omega, mid.length, by omega, ?_⟩
    rw [hdec, List.append_assoc, List.drop_left, List.take_left]
    exact hm

/-- C2 counterexample: with the compiled regex `a`, the request segment
`"ba"` is not fully matched by the regex, yet the route for
`/users/:id|a` matches request `/users/ba` and binds `id` to `"ba"`:
`MatchString` accepts any segment merely containing a match. -/
theorem claim2_counterexample :
    matchRoute rxCharA routeIdA [] (goSplit "/users/ba" '/') = ([("id", "ba")], true)
    ∧ (Regex.char 'a').fullMatchString "ba" = false :=
  ⟨by decide, by decide⟩

/-- C2 amended: for a regex-constrained parameter segment, the matcher
succeeds iff the regex matches *somewhere inside* the request segment
(Go `MatchString` contains-a-match semantics), not necessarily its full
text; on success the parameter name is bound to the full segment text. -/
theorem claim2_amended (rx : String → Regex) (seg k p : String)
    (rest us : List String) (u : String) (ctx : Ctx)
    (hpfx : strHasPfx seg ":" = true) (hdots : seg ≠ "...")
    (hcut : goCut (trimPfx seg ":") '|' = (k, p, true)) :
    matchLoop rx (seg :: rest) (u :: us) ctx
      = (if (rx p).matchString u then matchLoop rx rest us (ctxWithValue ctx k u)
         else (ctx, false))
    ∧ ((rx p).matchString u = true ↔
        ∃ pre mid suf : List Char,
          u.data = pre ++ mid ++ suf ∧ (rx p).fullMatch mid = true) := by
  refine ⟨?_, Regex.matchString_iff _ _⟩
  have hne : (seg == "...") = false := by simp [hdots]
  simp [matchLoop, hne, hpfx, hcut]

theorem claim2_witness :
    strHasPfx ":id|a" ":" = true ∧ (":id|a" : String) ≠ "..." ∧
    goCut (trimPfx ":id|a" ":") '|' = ("id", "a", true) ∧
    (matchLoop rxCharA [":id|a"] ["ba"] []
        = (if (rxCharA "a").matchString "ba" then
            matchLoop rxCharA [] [] (ctxWithValue [] "id" "ba")
           else ([], false))
      ∧ ((rxCharA "a").matchString "ba" = true ↔
          ∃ pre mid suf : List Char,
            ("ba" : String).data = pre ++ mid ++ suf
              ∧ (rxCharA "a").fullMatch mid = true)) := by
  refine ⟨by decide, by decide, by decide, ?_⟩
  exact claim2_amended rxCharA ":id|a" "id" "a" [] [] "ba" []
    (by decide) (by decide) (by decide)

/-- When the request has fewer segments than the route and the wildcard
marker does not occur among the compared route segments, the segment loop
fails: the `i > len(urlSegments)-1` bound check fires before any later
segment — including a `...` — is reached. -/
theorem matchLoop_short (rx : String → Regex) :
    ∀ (urls segs : List String) (ctx : Ctx),
      urls.length < segs.length →
      "..." ∉ segs.take urls.length →
      (matchLoop rx segs urls ctx).2 = false := by
  intro urls
  induction urls with
  | nil =>
    intro segs ctx hlen _
    match segs with
    | [] => simp at hlen
    | s :: ss => simp [matchLoop]
  | cons u us ih =>
    intro segs ctx hlen hdots
    match segs with
    | [] => simp at hlen
    | s :: ss =>
      rw [List.length_cons, List.take_succ_cons] at hdots
      simp only [List.mem_cons, not_or] at hdots
      obtain ⟨hs, hdots2⟩ := hdots
      have hlen2 : us.length < ss.length := by
        simp only [List.length_cons] at hlen; omega
      have hne : (s == "...") = false := by
        simp only [beq_eq_false_iff_ne]; exact fun h => hs h.symm
      simp only [matchLoop, hne, Bool.false_eq_true, if_false]
      split
      · split
        · split
          · exact ih ss _ hlen2 hdots2
          · rfl
        · split
          · rfl
          · exact ih ss _ hlen2 hdots2
      · split
        · exact ih ss _ hlen2 hdots2
        · rfl

/-- C3 counterexample: the wildcard pattern `/files/...` does *not* match
the request path `/files`; the neighbouring request `/files/` does match,
binding the wildcard key to the empty string. -/
theorem claim3_counterexample :
    (matchRoute rxNone routeFiles [] (goSplit "/files" '/')).2 = false
    ∧ matchRoute rxNone routeFiles [] (goSplit "/files/" '/') = ([("...", "")], true) :=
  ⟨by decide, by decide⟩

/-- C3 amended: a route — in particular a wildcard route — matches only
requests with at least as many segments as the route has; with fewer
segments the bound check fails the match before the wildcard marker is
reached (the marker not occurring among the compared segments). -/
theorem claim3_amended {α : Type} (rx : String → Regex) (r : Route α) (ctx : Ctx)
    (urls : List String)
    (hlen : urls.length < r.segments.length)
    (hdots : "..." ∉ r.segments.take urls.length) :
    (matchRoute rx r ctx urls).2 = false := by
  unfold matchRoute
  split
  · rfl
  · exact matchLoop_short rx urls r.segments ctx hlen hdots

theorem claim3_witness :
    (goSplit "/files" '/').length < routeFiles.segments.length
    ∧ "..." ∉ routeFiles.segments.take (goSplit "/files" '/').length
    ∧ (matchRoute rxNone routeFiles [] (goSplit "/files" '/')).2 = false := by
  refine ⟨by decide, by decide, ?_⟩
  exact claim3_amended rxNone routeFiles [] (goSplit "/files" '/') (by decide) (by decide)

/-- C8: an unconstrained `:name` segment matches exactly the non-empty
request segments, binding the name to the segment text; consequently
`/users/` (empty final segment) does not match `/users/:id`, while
`/users/42` matches and binds `id = "42"`. -/
theorem claim8_unconstrained_param (rx : String → Regex) (seg k : String)
    (rest us : List String) (u : String) (ctx : Ctx)
    (hpfx : strHasPfx seg ":" = true) (hdots : seg ≠ "...")
    (hcut : goCut (trimPfx seg ":") '|' = (k, "", false)) :
    matchLoop rx (seg :: rest) (u :: us) ctx
      = (if u == "" then (ctx, false) else matchLoop rx rest us (ctxWithValue ctx k u))
    ∧ (matchRoute rx routeUsersId [] (goSplit "/users/" '/')).2 = false
    ∧ matchRoute rx routeUsersId [] (goSplit "/users/42" '/') = ([("id", "42")], true) := by
  refine ⟨?_, rfl, rfl⟩
  have hne : (seg == "...") = false := by simp [hdots]
  simp [matchLoop, hne, hpfx, hcut]

theorem claim8_witness :
    strHasPfx ":id" ":" = true ∧ (":id" : String) ≠ "..." ∧
    goCut (trimPfx ":id" ":") '|' = ("id", "", false) ∧
    (matchLoop rxNone [":id"] ["42"] []
        = (if "42" == "" then (([] : Ctx), false)
           else matchLoop rxNone [] [] (ctxWithValue [] "id" "42"))
      ∧ (matchRoute rxNone routeUsersId [] (goSplit "/users/" '/')).2 = false
      ∧ matchRoute rxNone routeUsersId [] (goSplit "/users/42" '/')
          = ([("id", "42")], true)) := by
  refine ⟨by decide, by decide, by decide, ?_⟩
  exact claim8_unconstrained_param rxNone ":id" "id" [] [] "42" []
    (by decide) (by decide) (by decide)

/-- C9: a `...` token at any route position — mid-pattern included, where
the wildcard flag is false — makes the loop succeed as soon as it is
reached, binding the reserved key `...` to the remaining request segments
joined by `/` and never examining later route segments; the wildcard flag
only disables the initial segment-count equality check. -/
theorem claim9_wildcard_marker {α : Type} (rx : String → Regex)
    (post us : List String) (u : String) (ctx : Ctx)
    (method : String) (segs urls : List String) (handler : α) (ctx2 : Ctx)
    (hlen : urls.length = segs.length) :
    matchLoop rx ("..." :: post) (u :: us) ctx
      = (ctxWithValue ctx "..." (goJoin (u :: us) '/'), true)
    ∧ matchRoute rx (⟨method, segs, true, handler⟩ : Route α) ctx2 urls
        = matchLoop rx segs urls ctx2
    ∧ matchRoute rx (⟨method, segs, true, handler⟩ : Route α) ctx2 urls
        = matchRoute rx (⟨method, segs, false, handler⟩ : Route α) ctx2 urls := by
  refine ⟨by simp [matchLoop], by simp [matchRoute], ?_⟩
  simp [matchRoute, hlen]

theorem claim9_witness :
    (["", "a"] : List String).length = (["", "a"] : List String).length ∧
    (matchLoop rxNone ["...", "b"] ["x", "y"] []
        = (ctxWithValue [] "..." (goJoin ["x", "y"] '/'), true)
      ∧ matchRoute rxNone (⟨"GET", ["", "a"], true, 0⟩ : Route Nat) [] ["", "a"]
          = matchLoop rxNone ["", "a"] ["", "a"] []
      ∧ matchRoute rxNone (⟨"GET", ["", "a"], true, 0⟩ : Route Nat) [] ["", "a"]
          = matchRoute rxNone (⟨"GET", ["", "a"], false, 0⟩ : Route Nat) [] ["", "a"]) := by
  refine ⟨rfl, ?_⟩
  exact claim9_wildcard_marker rxNone ["b"] ["y"] "x" [] "GET" ["", "a"] ["", "a"] 0 [] rfl

/-- The scan dispatches the first route that path-matches with an equal
method, with the context enriched by that route's bindings, regardless of
the accumulator and of any later routes. -/
theorem scanRoutes_first {α : Type} (rx : String → Regex) (method : String)
    (segs : List String) (ctx : Ctx) :
    ∀ (routes : List (Route α)) (allowed : List String) (i : Nat) (hi : i < routes.length),
      fullB rx method segs ctx routes[i] = true →
      (∀ j (hj : j < routes.length), j < i → fullB rx method segs ctx routes[j] = false) →
      ∃ a, scanRoutes rx method segs ctx routes allowed
        = (some (routes[i].handler, (matchRoute rx routes[i] ctx segs).1), a) := by
  intro routes
  induction routes with
  | nil => intro allowed i hi; simp at hi
  | cons r rest ih =>
    intro allowed i hi hfull hfirst
    match i with
    | 0 =>
      simp only [List.getElem_cons_zero] at hfull ⊢
      have h1 : (matchRoute rx r ctx segs).2 = true ∧ (method == r.method) = true := by
        simpa [fullB, pathB, Bool.and_eq_true] using hfull
      refine ⟨allowed, ?_⟩
      simp [scanRoutes, h1.1, h1.2]
    | i + 1 =>
      simp only [List.getElem_cons_succ] at hfull ⊢
      have hi2 : i < rest.length := by
        simp only [List.length_cons] at hi; omega
      have h0 : fullB rx method segs ctx r = false := by
        simpa using hfirst 0 (by simp) (Nat.succ_pos i)
      have hrest : ∀ j (hj : j < rest.length), j < i →
          fullB rx method segs ctx rest[j] = false := by
        intro j hj hlt
        simpa using hfirst (j + 1) (by simp only [List.length_cons]; omega) (by omega)
      by_cases hp : (matchRoute rx r ctx segs).2 = true
      · simp only [fullB, pathB, hp, Bool.true_and] at h0
        obtain ⟨a, ha⟩ := ih
          (if allowed.contains r.method then allowed else allowed ++ [r.method]) i hi2 hfull hrest
        refine ⟨a, ?_⟩
        rw [show scanRoutes rx method segs ctx (r :: rest) allowed
            = scanRoutes rx method segs ctx rest
                (if allowed.contains r.method then allowed else allowed ++ [r.method]) from by
          simp [scanRoutes, hp, h0]]
        exact ha
      · obtain ⟨a, ha⟩ := ih allowed i hi2 hfull hrest
        refine ⟨a, ?_⟩
        rw [show scanRoutes rx method segs ctx (r :: rest) allowed
            = scanRoutes rx method segs ctx rest allowed from by simp [scanRoutes, hp]]
        exact ha

/-- C1: the Dispatcher scans routes in registration order and invokes the
handler of the first route whose path matches and whose method equals the
request's method, with the context enriched by its bindings, then stops:
in particular the earlier of two identical registrations wins. -/
theorem claim1_first_exact_route {α : Type} (rx : String → Regex) (m : Mux α)
    (method path : String) (ctx : Ctx) (i : Nat) (hi : i < m.routes.length)
    (hfull : fullB rx method (goSplit path '/') ctx m.routes[i] = true)
    (hfirst : ∀ j (hj : j < m.routes.length), j < i →
        fullB rx method (goSplit path '/') ctx m.routes[j] = false) :
    serveHTTP rx m method path ctx
      = Outcome.dispatched m.routes[i].handler
          (matchRoute rx m.routes[i] ctx (goSplit path '/')).1 := by
  obtain ⟨a, ha⟩ :=
    scanRoutes_first rx method (goSplit path '/') ctx m.routes [] i hi hfull hfirst
  simp [serveHTTP, ha]

theorem claim1_witness :
    fullB rxNone "POST" (goSplit "/x" '/') [] (muxA.routes.get ⟨0, by decide⟩) = true ∧
    serveHTTP rxNone muxA "POST" "/x" [] = Outcome.dispatched "h1" [] := by
  constructor
  · decide
  · have h := claim1_first_exact_route rxNone muxA "POST" "/x" [] 0 (by decide)
      (by decide) (fun j hj hlt => absurd hlt (Nat.not_lt_zero j))
    exact h.trans (by decide)

/-- When no route fully matches, the scan accumulates exactly the methods
of the path-matching routes through `stepAllow`. -/
theorem scanRoutes_none {α : Type} (rx : String → Regex) (method : String)
    (segs : List String) (ctx : Ctx) :
    ∀ (routes : List (Route α)) (allowed : List String),
      (∀ r ∈ routes, fullB rx method segs ctx r = false) →
      scanRoutes rx method segs ctx routes allowed
        = (none, (pathMethods rx segs ctx routes).foldl stepAllow allowed) := by
  intro routes
  induction routes with
  | nil => intro allowed _; simp [scanRoutes, pathMethods]
  | cons r rest ih =>
    intro allowed hnone
    have h0 : fullB rx method segs ctx r = false := hnone r (by simp)
    have hrest : ∀ x ∈ rest, fullB rx method segs ctx x = false :=
      fun x hx => hnone x (by simp [hx])
    by_cases hp : (matchRoute rx r ctx segs).2 = true
    · simp only [fullB, pathB, hp, Bool.true_and] at h0
      have hpm : pathMethods rx segs ctx (r :: rest)
          = r.method :: pathMethods rx segs ctx rest := by
        simp [pathMethods, pathB, List.filter_cons, hp]
      rw [hpm, List.foldl_cons]
      rw [show scanRoutes rx method segs ctx (r :: rest) allowed
          = scanRoutes rx method segs ctx rest (stepAllow allowed r.method) from by
        simp [scanRoutes, hp, h0, stepAllow]]
      exact ih (stepAllow allowed r.method) hrest
    · have hpm : pathMethods rx segs ctx (r :: rest) = pathMethods rx segs ctx rest := by
        simp [pathMethods, pathB, List.filter_cons, hp]
      rw [hpm]
      rw [show scanRoutes rx method segs ctx (r :: rest) allowed
          = scanRoutes rx method segs ctx rest allowed from by simp [scanRoutes, hp]]
      exact ih allowed hrest

/-- `dedupFirst` only consults membership of the seen list. -/
theorem dedupFirst_congr : ∀ (ms s1 s2 : List String),
    (∀ x, x ∈ s1 ↔ x ∈ s2) → dedupFirst s1 ms = dedupFirst s2 ms := by
  intro ms
  induction ms with
  | nil => intro s1 s2 _; rfl
  | cons m ms ih =>
    intro s1 s2 h
    by_cases hc : m ∈ s1
    · have e1 : s1.contains m = true := by simpa using hc
      have e2 : s2.contains m = true := by simpa using (h m).1 hc
      simp only [dedupFirst, e1, e2, if_true]
      exact ih s1 s2 h
    · have e1 : s1.contains m = false := by simpa using hc
      have e2 : s2.contains m = false := by
        simpa using fun hx => hc ((h m).2 hx)
      simp only [dedupFirst, e1, e2, Bool.false_eq_true, if_false]
      rw [ih (m :: s1) (m :: s2) (fun x => by simp [h x])]

/-- The accumulation fold is keep-first deduplication of the new elements
appended to the seen list. -/
theorem foldl_stepAllow : ∀ (ms seen : List String),
    ms.foldl stepAllow seen = seen ++ dedupFirst seen ms := by
  intro ms
  induction ms with
  | nil => intro seen; simp [dedupFirst]
  | cons m ms ih =>
    intro seen
    simp only [List.foldl_cons]
    by_cases hc : m ∈ seen
    · have e1 : seen.contains m = true := by simpa using hc
      have h1 : stepAllow seen m = seen := by simp [stepAllow, hc]
      rw [h1, ih seen,
        show dedupFirst seen (m :: ms) = dedupFirst seen ms from by
          simp only [dedupFirst, e1, if_true]]
    · have e1 : seen.contains m = false := by simpa using hc
      have h1 : stepAllow seen m = seen ++ [m] := by simp [stepAllow, hc]
      rw [h1, ih (seen ++ [m]),
        show dedupFirst seen (m :: ms) = m :: dedupFirst (m :: seen) ms from by
          simp only [dedupFirst, e1, Bool.false_eq_true, if_false]]
      rw [dedupFirst_congr ms (seen ++ [m]) (m :: seen)
        (fun x => by simp [List.mem_append, List.mem_cons, or_comm])]
      simp

/-- Membership in `dedupFirst`. -/
theorem mem_dedupFirst : ∀ (ms seen : List String) (x : String),
    x ∈ dedupFirst seen ms ↔ x ∈ ms ∧ ¬ x ∈ seen := by
  intro ms
  induction ms with
  | nil => intro seen x; simp [dedupFirst]
  | cons m ms ih =>
    intro seen x
    by_cases hc : m ∈ seen
    · have e1 : seen.contains m = true := by simpa using hc
      simp only [dedupFirst, e1, if_true, List.mem_cons]
      rw [ih seen x]
      constructor
      · rintro ⟨hx, hns⟩; exact ⟨Or.inr hx, hns⟩
      · rintro ⟨hx | hx, hns⟩
        · subst hx; exact absurd hc hns
        · exact ⟨hx, hns⟩
    · have e1 : seen.contains m = false := by simpa using hc
      simp only [dedupFirst, e1, Bool.false_eq_true, if_false, List.mem_cons]
      rw [ih (m :: seen) x]
      simp only [List.mem_cons]
      constructor
      · rintro (hx | ⟨hx, hns⟩)
        · subst hx; exact ⟨Or.inl rfl, hc⟩
        · exact ⟨Or.inr hx, fun h2 => hns (Or.inr h2)⟩
      · rintro ⟨hx | hx, hns⟩
        · exact Or.inl hx
        · by_cases hxm : x = m
          · exact Or.inl hxm
          · exact Or.inr ⟨hx, fun h2 => h2.elim hxm hns⟩

/-- `dedupFirst` has no duplicates. -/
theorem nodup_dedupFirst : ∀ (ms seen : List String), (dedupFirst seen ms).Nodup := by
  intro ms
  induction ms with
  | nil => intro seen; simp [dedupFirst]
  | cons m ms ih =>
    intro seen
    by_cases hc : m ∈ seen
    · have e1 : seen.contains m = true := by simpa using hc
      simp only [dedupFirst, e1, if_true]
      exact ih seen
    · have e1 : seen.contains m = false := by simpa using hc
      simp only [dedupFirst, e1, Bool.false_eq_true, if_false]
      refine List.nodup_cons.2 ⟨?_, ih (m :: seen)⟩
      intro hmem
      exact ((mem_dedupFirst ms (m :: seen) m).1 hmem).2 (List.mem_cons_self m seen)

/-- In a duplicate-free list of strings, a member is counted once. -/
theorem count_one_of_nodup_mem : ∀ (l : List String) (x : String),
    l.Nodup → x ∈ l → l.count x = 1 := by
  intro l
  induction l with
  | nil => intro x _ hx; simp at hx
  | cons a t ih =>
    intro x hnd hx
    rcases List.mem_cons.1 hx with h1 | h1
    · subst h1
      rw [List.count_cons_self, List.count_eq_zero.2 (List.nodup_cons.1 hnd).1]
    · have hne : x ≠ a := by
        rintro rfl
        exact (List.nodup_cons.1 hnd).1 h1
      rw [List.count_cons_of_ne hne]
      exact ih x (List.nodup_cons.1 hnd).2 h1

/-- The dispatch outcome when some route path-matches but none fully
matches: the `Allow` header is the joined keep-first deduplication of the
path-matching routes' methods followed by `OPTIONS`, and the wrapped
Options (for an OPTIONS request) or MethodNotAllowed handler is invoked. -/
theorem serveHTTP_no_full_match {α : Type} (rx : String → Regex) (m : Mux α)
    (method path : String) (ctx : Ctx)
    (hnone : ∀ r ∈ m.routes, fullB rx method (goSplit path '/') ctx r = false)
    (hsome : ∃ r ∈ m.routes, pathB rx (goSplit path '/') ctx r = true) :
    serveHTTP rx m method path ctx
      = (if method == "OPTIONS" then
          Outcome.optionsResp
            (goJoin (dedupKeepFirst (pathMethods rx (goSplit path '/') ctx m.routes)
              ++ ["OPTIONS"]) ',')
            (m.wrap m.options)
        else
          Outcome.methodNotAllowedResp
            (goJoin (dedupKeepFirst (pathMethods rx (goSplit path '/') ctx m.routes)
              ++ ["OPTIONS"]) ',')
            (m.wrap m.methodNotAllowed)) := by
  have hscan : scanRoutes rx method (goSplit path '/') ctx m.routes []
      = (none, dedupKeepFirst (pathMethods rx (goSplit path '/') ctx m.routes)) := by
    rw [scanRoutes_none rx method (goSplit path '/') ctx m.routes [] hnone, foldl_stepAllow]
    simp [dedupKeepFirst]
  have hlen : 0 < (dedupKeepFirst (pathMethods rx (goSplit path '/') ctx m.routes)).length := by
    obtain ⟨r, hr, hp⟩ := hsome
    have hmem : r.method ∈ pathMethods rx (goSplit path '/') ctx m.routes :=
      List.mem_map.2 ⟨r, List.mem_filter.2 ⟨hr, hp⟩, rfl⟩
    exact List.length_pos_of_mem
      ((mem_dedupFirst _ [] _).2 ⟨hmem, by simp⟩)
  simp only [serveHTTP, hscan]
  rw [if_pos hlen]

/-- C4: when the path matches at least one route but the method matches
none, the `Allow` header is set to the matched routes' methods in
scan-encounter order without duplicates, followed by `OPTIONS`; an
OPTIONS request invokes the wrapped Options handler, any other request
the wrapped MethodNotAllowed handler. -/
theorem claim4_allow_header {α : Type} (rx : String → Regex) (m : Mux α)
    (method path : String) (ctx : Ctx)
    (hnone : ∀ r ∈ m.routes, fullB rx method (goSplit path '/') ctx r = false)
    (hsome : ∃ r ∈ m.routes, pathB rx (goSplit path '/') ctx r = true) :
    serveHTTP rx m method path ctx
      = (if method == "OPTIONS" then
          Outcome.optionsResp
            (goJoin (dedupKeepFirst (pathMethods rx (goSplit path '/') ctx m.routes)
              ++ ["OPTIONS"]) ',')
            (m.wrap m.options)
        else
          Outcome.methodNotAllowedResp
            (goJoin (dedupKeepFirst (pathMethods rx (goSplit path '/') ctx m.routes)
              ++ ["OPTIONS"]) ',')
            (m.wrap m.methodNotAllowed)) :=
  serveHTTP_no_full_match rx m method path ctx hnone hsome

theorem claim4_witness :
    (∀ r ∈ muxGP.routes, fullB rxNone "OPTIONS" (goSplit "/w" '/') [] r = false) ∧
    (∃ r ∈ muxGP.routes, pathB rxNone (goSplit "/w" '/') [] r = true) ∧
    serveHTTP rxNone muxGP "OPTIONS" "/w" []
      = Outcome.optionsResp "GET,POST,OPTIONS" "OPT" := by
  refine ⟨by decide, by decide, ?_⟩
  exact (claim4_allow_header rxNone muxGP "OPTIONS" "/w" [] (by decide) (by decide)).trans
    (by decide)

/-- C10: when an OPTIONS-registered route path-matches but the request
method matches no route, the `Allow` list carries `OPTIONS` twice: once
from the deduplicated accumulation and once from the unconditional final
append. -/
theorem claim10_options_twice {α : Type} (rx : String → Regex) (m : Mux α)
    (method path : String) (ctx : Ctx)
    (hnone : ∀ r ∈ m.routes, fullB rx method (goSplit path '/') ctx r = false)
    (hopt : ∃ r ∈ m.routes, pathB rx (goSplit path '/') ctx r = true
      ∧ r.method = "OPTIONS") :
    ∃ A : List String,
      serveHTTP rx m method path ctx
        = Outcome.methodNotAllowedResp (goJoin (A ++ ["OPTIONS"]) ',')
            (m.wrap m.methodNotAllowed)
      ∧ A.count "OPTIONS" = 1
      ∧ (A ++ ["OPTIONS"]).count "OPTIONS" = 2 := by
  obtain ⟨r, hr, hp, hro⟩ := hopt
  have hserve := serveHTTP_no_full_match rx m method path ctx hnone ⟨r, hr, hp⟩
  have hm : (method == "OPTIONS") = false := by
    by_contra hcon
    have hmeq : method = "OPTIONS" := by
      have := Bool.not_eq_false (method == "OPTIONS") ▸ hcon
      simpa using Bool.of_not_eq_false hcon
    have : fullB rx method (goSplit path '/') ctx r = true := by
      simp [fullB, hp, hmeq, hro]
    rw [hnone r hr] at this
    exact Bool.false_ne_true this
  rw [hm] at hserve
  simp only [Bool.false_eq_true, if_false] at hserve
  have hmem : "OPTIONS" ∈ pathMethods rx (goSplit path '/') ctx m.routes := by
    have : r.method ∈ pathMethods rx (goSplit path '/') ctx m.routes :=
      List.mem_map.2 ⟨r, List.mem_filter.2 ⟨hr, hp⟩, rfl⟩
    rwa [hro] at this
  have hA : "OPTIONS" ∈ dedupKeepFirst (pathMethods rx (goSplit path '/') ctx m.routes) :=
    (mem_dedupFirst _ [] _).2 ⟨hmem, by simp⟩
  refine ⟨dedupKeepFirst (pathMethods rx (goSplit path '/') ctx m.routes), hserve, ?_, ?_⟩
  · exact count_one_of_nodup_mem _ _ (nodup_dedupFirst _ _) hA
  · have hc1 : (dedupKeepFirst
        (pathMethods rx (goSplit path '/') ctx m.routes)).count "OPTIONS" = 1 :=
      count_one_of_nodup_mem _ _ (nodup_dedupFirst _ _) hA
    rw [List.count_append, hc1]
    decide

theorem claim10_witness :
    (∀ r ∈ muxOpt.routes, fullB rxNone "GET" (goSplit "/x" '/') [] r = false) ∧
    (∃ r ∈ muxOpt.routes, pathB rxNone (goSplit "/x" '/') [] r = true
      ∧ r.method = "OPTIONS") ∧
    (∃ A : List String,
      serveHTTP rxNone muxOpt "GET" "/x" []
        = Outcome.methodNotAllowedResp (goJoin (A ++ ["OPTIONS"]) ',')
            (muxOpt.wrap muxOpt.methodNotAllowed)
      ∧ A.count "OPTIONS" = 1
      ∧ (A ++ ["OPTIONS"]).count "OPTIONS" = 2) := by
  refine ⟨by decide, by decide, ?_⟩
  exact claim10_options_twice rxNone muxOpt "GET" "/x" [] (by decide) (by decide)

/-- C5: with GET present and HEAD absent in the method list, registration
appends a second GET, so one extra identical GET route is registered and
HEAD support is not added. -/
theorem claim5_get_duplicate {α : Type} (m : Mux α) (pat : String) (handler : α)
    (methods : List String)
    (hne : methods ≠ [])
    (hget : methods.contains "GET" = true)
    (hhead : methods.contains "HEAD" = false) :
    (m.handle pat handler methods).routes
      = m.routes ++ (methods ++ ["GET"]).map (fun method =>
          { method := strUpper method
            segments := goSplit pat '/'
            wildcard := strHasSfx pat "/..."
            handler := m.wrap handler : Route α })
    ∧ 2 ≤ (((m.handle pat handler methods).routes.drop m.routes.length).map
        (fun r => r.method)).count "GET"
    ∧ (methods ++ ["GET"]).contains "HEAD" = false := by
  have hmem : "GET" ∈ methods := by simpa using hget
  have hheadm : "HEAD" ∉ methods := by simpa using hhead
  have heq : (m.handle pat handler methods).routes
      = m.routes ++ (methods ++ ["GET"]).map (fun method =>
          { method := strUpper method
            segments := goSplit pat '/'
            wildcard := strHasSfx pat "/..."
            handler := m.wrap handler : Route α }) := by
    simp [Mux.handle, hne, hmem, hheadm]
  refine ⟨heq, ?_, ?_⟩
  · rw [heq, List.drop_left, List.map_map]
    show 2 ≤ (((methods ++ ["GET"]).map (fun x => strUpper x)).count "GET")
    rw [List.map_append, List.count_append]
    have h1 : 0 < (methods.map (fun x => strUpper x)).count "GET" :=
      List.count_pos_iff.2 (List.mem_map.2 ⟨"GET", hmem, by decide⟩)
    have h2 : ((["GET"] : List String).map (fun x => strUpper x)).count "GET" = 1 := by
      decide
    omega
  · simp [hheadm]

theorem claim5_witness :
    (["GET"] : List String) ≠ [] ∧
    (["GET"] : List String).contains "GET" = true ∧
    (["GET"] : List String).contains "HEAD" = false ∧
    (muxE.handle "/w" "h" ["GET"]).routes
      = [⟨"GET", ["", "w"], false, "h"⟩, ⟨"GET", ["", "w"], false, "h"⟩] := by
  refine ⟨by decide, by decide, by decide, ?_⟩
  exact (claim5_get_duplicate muxE "/w" "h" ["GET"]
    (by decide) (by decide) (by decide)).1.trans (by decide)

/-- C6: `wrap` nests the first-registered middleware outermost —
`wrap [A, B] H = A (B H)` — so with `[A, B]` around `H` the inbound order
is A, B, H and the outbound order is H, B, A, as the trace shows. -/
theorem claim6_onion_order :
    (∀ (α : Type) (A B : α → α) (H : α), wrap [A, B] H = A (B H))
    ∧ wrap [mwTrace "A:in" "A:out", mwTrace "B:in" "B:out"] (handlerTrace "H") []
        = ["A:in", "B:in", "H", "B:out", "A:out"] := by
  exact ⟨fun α A B H => rfl, rfl⟩

/-- C7: a registered route's stored handler is the supplied handler
wrapped in the middleware list as of registration time; a later `use`
leaves the route table, and hence every stored handler, unchanged. -/
theorem claim7_wrap_at_registration {α : Type} (m : Mux α) (pat : String)
    (handler : α) (methods : List String) (mws : List (α → α)) :
    ((m.handle pat handler methods).use mws).routes = (m.handle pat handler methods).routes
    ∧ ∀ r ∈ ((m.handle pat handler methods).use mws).routes.drop m.routes.length,
        r.handler = wrap m.middleware handler := by
  refine ⟨rfl, ?_⟩
  intro r hr
  simp only [Mux.use, Mux.handle] at hr
  rw [List.drop_left] at hr
  obtain ⟨x, -, hfx⟩ := List.mem_map.1 hr
  rw [← hfx]
  rfl

end Iter
